import Mathlib

/-!
Verification of the document segmentation and structural-consistency
analysis engine of the repository (src/cod.py).

Paragraph text is modelled as `String` (a list of characters).  The
DOCX reader is abstracted away: a document is the ordered list of its
paragraphs' texts, except for the separator normalizer, where the
paragraph's XML structure matters and is modelled explicitly.

Python regular expressions over the heading pattern
`^Глава\s+(\d+)(?:\.(\d+))?` are embedded as a hand-rolled matcher on
character lists; since the `Глава` literal, the whitespace class and
the digit class are pairwise disjoint, the greedy matcher below has
the same semantics as the regex.  `\s` and `\d` are modelled on the
character sets actually occurring in manuscripts (ASCII whitespace and
ASCII digits); Python's classes are Unicode-wider but agree on these.
-/

namespace Cod

/-- ASCII whitespace, the subset of Python's `\s` / `str.strip` set used here. -/
def isSpaceChar (c : Char) : Bool :=
  c = ' ' || c = '\t' || c = '\n' || c = '\r' || c = '\x0b' || c = '\x0c'

/-- ASCII decimal digit, modelling Python's `\d` on the inputs in scope. -/
def isDigitChar (c : Char) : Bool :=
  '0' ≤ c && c ≤ '9'

/-- Unicode lowercasing restricted to the two scripts in scope (Latin A–Z,
Cyrillic А–Я and Ё), as used by `re.IGNORECASE` on the word `Глава`. -/
def lowerChar (c : Char) : Char :=
  if 'A' ≤ c && c ≤ 'Z' then Char.ofNat (c.toNat + 32)
  else if 'А' ≤ c && c ≤ 'Я' then Char.ofNat (c.toNat + 32)
  else if c = 'Ё' then 'ё'
  else c

/-- Python `\w` (word character) restricted to the scripts in scope:
ASCII letters, digits, underscore, and Cyrillic letters. -/
def isWordChar (c : Char) : Bool :=
  ('a' ≤ c && c ≤ 'z') || ('A' ≤ c && c ≤ 'Z') || isDigitChar c || c = '_' ||
    ('А' ≤ c && c ≤ 'я') || c = 'Ё' || c = 'ё'

/-- Python `str.strip()` on a character list: drop whitespace at both ends. -/
def stripL (cs : List Char) : List Char :=
  ((cs.dropWhile isSpaceChar).reverse.dropWhile isSpaceChar).reverse

/-- Python `str.strip()` on a `String`. -/
def stripS (s : String) : String :=
  ⟨stripL s.data⟩

/-- The decimal digit character for a value `< 10` (`str` of a one-digit int). -/
def digitChar (d : Nat) : Char :=
  match d with
  | 0 => '0' | 1 => '1' | 2 => '2' | 3 => '3' | 4 => '4'
  | 5 => '5' | 6 => '6' | 7 => '7' | 8 => '8' | _ => '9'

/-- Fuel-driven decimal rendering; `fuel > n` always suffices. -/
def toDecAux : Nat → Nat → List Char
  | 0, _ => []
  | fuel + 1, n =>
    if n < 10 then [digitChar n]
    else toDecAux fuel (n / 10) ++ [digitChar (n % 10)]

/-- Decimal rendering of a natural number, modelling Python `str(int)`. -/
def toDec (n : Nat) : List Char :=
  toDecAux (n + 1) n

/-- Decimal rendering as a `String`. -/
def natToStr (n : Nat) : String :=
  ⟨toDec n⟩

/-- Decimal parsing of a digit run, modelling Python `int(str)`. -/
def ofDec (cs : List Char) : Nat :=
  cs.foldl (fun a c => 10 * a + (c.toNat - 48)) 0

/-- Case-sensitive or case-insensitive literal matching at the front of a
character list; returns the rest of the input on success. -/
def matchLiteral (ci : Bool) : List Char → List Char → Option (List Char)
  | [], s => some s
  | _ :: _, [] => none
  | l :: ls, c :: cs =>
    if (if ci then lowerChar c = lowerChar l else c = l) then
      matchLiteral ci ls cs
    else none

/-- The literal word of the heading pattern. -/
def glavaChars : List Char := ['Г', 'л', 'а', 'в', 'а']

/-- The heading regex `^Глава\s+(\d+)(?:\.(\d+))?` applied to an
(already stripped) character list; returns the two digit-run groups
(the minor one optional) exactly as Python's `match.group(1)/group(2)`.
`ci` selects `re.IGNORECASE`. -/
def headingGroups (ci : Bool) (t : List Char) : Option (List Char × Option (List Char)) :=
  match matchLiteral ci glavaChars t with
  | none => none
  | some r1 =>
    match r1 with
    | [] => none
    | c :: cs =>
      if isSpaceChar c then
        let r2 := cs.dropWhile isSpaceChar
        let ds := r2.takeWhile isDigitChar
        let r3 := r2.dropWhile isDigitChar
        if ds = [] then none
        else
          match r3 with
          | '.' :: r4 =>
            let ds2 := r4.takeWhile isDigitChar
            if ds2 = [] then some (ds, none) else some (ds, some ds2)
          | _ => some (ds, none)
      else none

/-- Heading match of a paragraph: strip, then apply the pattern
(as every operation in `cod.py` does: `text = para.text.strip()`
followed by `heading_pattern.match(text)`). -/
def headingMatch (ci : Bool) (text : String) : Option (List Char × Option (List Char)) :=
  headingGroups ci (stripL text.data)

/-- Heading test used by `split_document` (src/cod.py line 42): the pattern
has NO `re.IGNORECASE` flag, so the word `Глава` must match case-sensitively. -/
def segIsHeading (text : String) : Bool :=
  (headingMatch false text).isSome

/-- Heading match used by `split_chapters_into_two` (line 96), with
`re.IGNORECASE` and the two capture groups. -/
def twoHeadingMatch (text : String) : Option (List Char × Option (List Char)) :=
  headingMatch true text

/-- Heading test used by `find_duplicate_chapters` (line 210), with
`re.IGNORECASE`. -/
def dupIsHeading (text : String) : Bool :=
  (headingMatch true text).isSome

/-- Heading match used by `find_missing_chapters` (line 254), with
`re.IGNORECASE`; group 1 there is the full numeric label, here split
into its digit runs. -/
def missHeadingMatch (text : String) : Option (List Char × Option (List Char)) :=
  headingMatch true text

/-! ### Chapter segmentation (split_document, lines 28–90) -/

/-- The chapter-accumulating loop of `split_document` (and, with the
case-insensitive heading test, of `find_duplicate_chapters` and
`split_chapters_into_two`): walk the paragraphs; a heading closes the
current chapter (if any) and opens a new one whose title is the stripped
heading text; a non-heading paragraph is appended (verbatim) to the open
chapter and discarded when no chapter is open; the last open chapter is
closed at the end of the input. -/
def segmentLoop (isH : String → Bool) : List String → Option (String × List String) → List (String × List String)
  | [], cur => match cur with | none => [] | some c => [c]
  | p :: rest, cur =>
    if isH p then
      match cur with
      | none => segmentLoop isH rest (some (stripS p, []))
      | some c => c :: segmentLoop isH rest (some (stripS p, []))
    else
      match cur with
      | none => segmentLoop isH rest none
      | some c => segmentLoop isH rest (some (c.1, c.2 ++ [p]))

/-- `split_document`, reduced to its document transformation: the list of
produced chapters, each a title (the stripped heading text) and the list
of the paragraph texts copied into the chapter's output document. -/
def splitDocument (paras : List String) : List (String × List String) :=
  segmentLoop segIsHeading paras none

/-! ### Output file naming (_unique_path, lines 54–61 and 103–110) -/

/-- `re.sub(r"[^\w\s.-]", "", title).strip()`: keep word characters,
whitespace, dots and hyphens, then strip. -/
def sanitizeTitle (t : String) : String :=
  ⟨stripL (t.data.filter (fun c => isWordChar c || isSpaceChar c || c = '.' || c = '-'))⟩

/-- The chapter file name chosen by `split_document`: sanitized title
(fallback `section`) plus the `.docx` extension. -/
def chapterFileName (title : String) : String :=
  let s := sanitizeTitle title
  (if s = "" then "section" else s) ++ ".docx"

/-- `os.path.splitext`: split a file name at its last dot, unless every
character before that dot is itself a dot (a leading-dots base name). -/
def splitExt (s : List Char) : List Char × List Char :=
  let revExt := s.reverse.takeWhile (fun c => c ≠ '.')
  match s.reverse.dropWhile (fun c => c ≠ '.') with
  | [] => (s, [])
  | _ :: revBase =>
    if revBase.all (fun c => c = '.') then (s, [])
    else (revBase.reverse, '.' :: revExt.reverse)

/-- The candidate name `f"{base} ({counter}){ext}"` tried by `_unique_path`. -/
def candName (base ext : List Char) (n : Nat) : List Char :=
  base ++ (' ' :: '(' :: toDec n) ++ (')' :: ext)

/-- The `while os.path.exists(candidate)` loop of `_unique_path`, with the
file system modelled as the list of existing names in the output directory.
The loop is given `existing.length + 1` iterations of fuel, which always
suffices (proved below); on exhausted fuel the current candidate is kept. -/
def uniqueGo (existing : List (List Char)) (base ext : List Char) : Nat → Nat → List Char
  | counter, 0 => candName base ext counter
  | counter, fuel + 1 =>
    if candName base ext counter ∈ existing then
      uniqueGo existing base ext (counter + 1) fuel
    else candName base ext counter

/-- `_unique_path`: the first candidate is the file name itself; while the
candidate exists, retry with the `" (N)"` suffix, `N` counting up from 2. -/
def uniquePath (existing : List (List Char)) (filename : List Char) : List Char :=
  if filename ∈ existing then
    let be := splitExt filename
    uniqueGo existing be.1 be.2 2 (existing.length + 1)
  else filename

/-- Saving a sequence of chapter files in order: each name is made unique
against the directory contents, which grow with every file written. -/
def writeAll (existing : List (List Char)) : List String → List (List Char)
  | [] => []
  | n :: ns =>
    let p := uniquePath existing n.data
    p :: writeAll (existing ++ [p]) ns

/-- The file names created by `split_document` on a document, starting from
an output directory with the given contents. -/
def splitDocumentFiles (existing : List (List Char)) (paras : List String) : List (List Char) :=
  writeAll existing ((splitDocument paras).map (fun ch => chapterFileName ch.1))

/-! ### Even splitting (split_chapters_into_two, lines 93–178) -/

/-- Heading test of `split_chapters_into_two` (case-insensitive pattern). -/
def twoIsHeading (text : String) : Bool :=
  (twoHeadingMatch text).isSome

/-- The chapter label of `split_chapters_into_two`: group 1, or
`"{major}.{minor}"` when group 2 matched (both kept as raw digit runs). -/
def twoLabel (t : String) : String :=
  match twoHeadingMatch t with
  | some (mj, none) => ⟨mj⟩
  | some (mj, some mi) => (⟨mj⟩ : String) ++ "." ++ ⟨mi⟩
  | none => t

/-- The chapters seen by `split_chapters_into_two`: the same accumulation
loop, with labels extracted from the match groups. -/
def twoChapters (paras : List String) : List (String × List String) :=
  (segmentLoop twoIsHeading paras none).map (fun ch => (twoLabel ch.1, ch.2))

/-- `max(len(p.text.strip()), 1)`: the weight of one paragraph. -/
def paragraphWeight (p : String) : Nat :=
  max (stripS p).length 1

/-- The `for index, weight in enumerate(weights, start=1)` loop of
`_save_split`: the first 1-based index at which the cumulative weight
reaches `target = total_weight / 2` — the Python comparison
`cumulative >= total / 2` is the exact rational comparison
`2 * cumulative ≥ total` (binary floating point halves an integer below
2^53 exactly).  `dflt` is the `len(paragraphs) // 2` initial value, kept
when the loop never breaks. -/
def splitIndexLoop : List Nat → Nat → Nat → Nat → Nat → Nat
  | [], _, _, _, dflt => dflt
  | w :: ws, total, cum, idx, dflt =>
    if total ≤ 2 * (cum + w) then idx
    else splitIndexLoop ws total (cum + w) (idx + 1) dflt

/-- The split index of `_save_split` after the two clamps
(`split_index >= len ⇒ len - 1`, then `split_index <= 0 ⇒ 1`). -/
def saveSplitIndex (ps : List String) : Nat :=
  let ws := ps.map paragraphWeight
  let i := splitIndexLoop ws ws.sum 0 1 (ps.length / 2)
  let i1 := if ps.length ≤ i then ps.length - 1 else i
  if i1 = 0 then 1 else i1

/-- `_save_split`, reduced to its partition of the chapter's paragraphs:
`none` when the chapter is skipped (fewer than two paragraphs, or an
empty second part), otherwise the two halves. -/
def saveSplitParts (ps : List String) : Option (List String × List String) :=
  if ps.length < 2 then none
  else
    let i := saveSplitIndex ps
    let f := ps.take i
    let s := ps.drop i
    if s = [] then none else some (f, s)

/-- The labels reported as skipped by `split_chapters_into_two`, in
chapter order. -/
def twoSkippedLabels (paras : List String) : List String :=
  (twoChapters paras).filterMap (fun ch => if saveSplitParts ch.2 = none then some ch.1 else none)

/-! ### Duplicate detection (find_duplicate_chapters, lines 206–239) -/

/-- The chapter-collecting loop of `find_duplicate_chapters`: titles are
stripped heading texts; the body accumulates the *stripped* text of every
non-heading paragraph; on closing, the content is joined with `"\n"` and
stripped again. -/
def dupLoop : List String → Option (String × List String) → List (String × String)
  | [], cur =>
    match cur with
    | none => []
    | some c => [(c.1, stripS (String.intercalate "\n" c.2))]
  | p :: rest, cur =>
    let tx := stripS p
    if dupIsHeading p then
      match cur with
      | none => dupLoop rest (some (tx, []))
      | some c => (c.1, stripS (String.intercalate "\n" c.2)) :: dupLoop rest (some (tx, []))
    else
      match cur with
      | none => dupLoop rest none
      | some c => dupLoop rest (some (c.1, c.2 ++ [tx]))

/-- `content_map.setdefault(content, []).append(title)` over an
insertion-ordered map modelled as an association list. -/
def insertContent (m : List (String × List String)) (key title : String) : List (String × List String) :=
  match m with
  | [] => [(key, [title])]
  | kv :: rest =>
    if kv.1 = key then (kv.1, kv.2 ++ [title]) :: rest
    else kv :: insertContent rest key title

/-- `find_duplicate_chapters`: group chapter titles by content key in
first-seen key order and emit the groups with at least two members. -/
def findDuplicateChapters (paras : List String) : List (List String × String) :=
  let chapters := dupLoop paras none
  let m := chapters.foldl (fun acc ch => insertContent acc ch.2 ch.1) []
  (m.filter (fun kv => 2 ≤ kv.2.length)).map (fun kv => (kv.2, kv.1))

/-! ### Numbering audit (find_missing_chapters, lines 250–335) -/

/-- `_format_chapter_number` (lines 242–247). -/
def formatChapterNumber : Nat × Option Nat → String
  | (mj, none) => "Глава " ++ natToStr mj
  | (mj, some mi) => "Глава " ++ natToStr mj ++ "." ++ natToStr mi

/-- The raw heading numbers of a document in encountered order, as the
digit-run groups of the heading pattern (`raw_numbers`, lines 255–261). -/
def extractNums (paras : List String) : List (List Char × Option (List Char)) :=
  paras.filterMap missHeadingMatch

/-- Integer mode (lines 268–279).  For each encountered number, the
`while expected < current` loop appends `expected, …, current - 1`
(that is `List.range' expected (current - expected)`) to the missing
list, after which `expected` becomes `current + 1`. -/
def intWalk : Nat → List Nat → List String
  | _, [] => []
  | expected, c :: rest =>
    (List.range' expected (c - expected)).map (fun e => formatChapterNumber (e, none))
      ++ intWalk (c + 1) rest

/-- One step of the `majors.setdefault`/`major_order.append` grouping
(lines 292–299): append the minor under its major, registering an unseen
major at the end. -/
def addChapterPair (acc : List (Nat × List Nat)) (mj mi : Nat) : List (Nat × List Nat) :=
  match acc with
  | [] => [(mj, [mi])]
  | g :: rest =>
    if g.1 = mj then (g.1, g.2 ++ [mi]) :: rest
    else g :: addChapterPair rest mj mi

/-- Occurrences grouped by major in first-seen major order, minors in
encountered order under each major. -/
def groupByMajor (ps : List (Nat × Nat)) : List (Nat × List Nat) :=
  ps.foldl (fun acc p => addChapterPair acc p.1 p.2) []

/-- Sorted insertion that drops an already-present element. -/
def insertSortedNat (x : Nat) : List Nat → List Nat
  | [] => [x]
  | y :: ys =>
    if x < y then x :: y :: ys
    else if x = y then y :: ys
    else y :: insertSortedNat x ys

/-- `list(dict.fromkeys(minors))` followed by `.sort()`: the ascending
list of the distinct minors. -/
def sortedDedup (l : List Nat) : List Nat :=
  l.foldr insertSortedNat []

/-- The per-major `while expected_minor < minor` walk (lines 315–320). -/
def minorWalk (mj : Nat) : Nat → List Nat → List String
  | _, [] => []
  | expected, mi :: rest =>
    (List.range' expected (mi - expected)).map (fun e => formatChapterNumber (mj, some e))
      ++ minorWalk mj (mi + 1) rest

/-- Decimal mode main loop (lines 301–334), with the running
`prev_major` / `prev_max_minor` optionals carried explicitly.  The three
parts per major are: the skipped-major synthesis, the per-major minor
walk, and the decreasing-maximum fill; the carried maximum is updated
only when the current maximum is non-zero (`if original_max_minor:`). -/
def decLoop : List (Nat × List Nat) → Option Nat → Option Nat → List String
  | [], _, _ => []
  | g :: rest, prevMajor, prevMax =>
    let major := g.1
    let gapPart :=
      match prevMajor with
      | some pm =>
        if pm + 1 < major then
          let limit := max (prevMax.getD 1) 1
          ((List.range' (pm + 1) (major - pm - 1)).map
            (fun gm => (List.range' 1 limit).map (fun mi => formatChapterNumber (gm, some mi)))).flatten
        else []
      | none => []
    let om := sortedDedup g.2
    let walk := minorWalk major 1 om
    let curMax := om.getLast?.getD 0
    let decPart :=
      match prevMax with
      | some p =>
        if curMax < p then
          (List.range' (curMax + 1) (p - curMax)).map (fun v => formatChapterNumber (major, some v))
        else []
      | none => []
    let newPrevMax := if curMax ≠ 0 then some curMax else if prevMax = none then some 1 else prevMax
    gapPart ++ walk ++ decPart ++ decLoop rest (some major) newPrevMax

/-- The `(int(parts[0]), int(parts[1]))` pairs of the raw numbers that do
have a minor part (lines 281–286). -/
def decimalPairsOf (raw : List (List Char × Option (List Char))) : List (Nat × Nat) :=
  raw.filterMap (fun r =>
    match r.2 with
    | some mi => some (ofDec r.1, ofDec mi)
    | none => none)

/-- `find_missing_chapters`, reduced to its document transformation.
`contains_decimal = any("." in value)` holds exactly when some heading
matched with a minor group; in integer mode `expected` starts at
`numbers[0]`. -/
def findMissingChapters (paras : List String) : List String :=
  if extractNums paras = [] then []
  else if (extractNums paras).all (fun r => r.2 = none) then
    match (extractNums paras).map (fun r => ofDec r.1) with
    | [] => []
    | n :: rest => intWalk n (n :: rest)
  else if decimalPairsOf (extractNums paras) = [] then []
  else decLoop (groupByMajor (decimalPairsOf (extractNums paras))) none none

/-! ### Separator normalization (fix_formatted_separator, lines 445–457)

A `w:p` element is modelled as its optional `w:pPr` (paragraph
properties) child plus its ordered content children.  Inside `w:pPr`,
the `w:pBdr` border declaration (with its edge tags) is distinguished;
every other paragraph-level property (alignment, spacing, style, …) is
an opaque entry of `others`.  Content children are runs, legacy `w:pict`
shapes and `w:drawing` objects. -/

inductive PContent where
  | run (text : String)
  | pict (hr : Bool)
  | drawing (title descr : String)
deriving DecidableEq

structure PPr where
  pBdr : Option (List String)
  others : List String
deriving DecidableEq

structure OxmlP where
  pPr : Option PPr
  content : List PContent
deriving DecidableEq

/-- The `for child in list(p_element): if child.tag != qn("w:pPr"):
p_element.remove(child)` loop: every non-property child is removed. -/
def removeNonPPrChildren (p : OxmlP) : OxmlP :=
  { p with content := [] }

/-- The python-docx `Paragraph.text` setter: clear the content children
(paragraph properties are preserved) and append a single run holding the
text. -/
def setParagraphText (p : OxmlP) (t : String) : OxmlP :=
  { p with content := [PContent.run t] }

/-- `CT_P.get_or_add_pPr`: return the properties element, inserting an
empty one when absent. -/
def getOrAddPPr (p : OxmlP) : PPr × OxmlP :=
  match p.pPr with
  | some pr => (pr, p)
  | none => (⟨none, []⟩, { p with pPr := some ⟨none, []⟩ })

/-- The plain-text marker (`"***​"`, three asterisks and a
zero-width space) written by `fix_formatted_separator`. -/
def separatorMarker : String := "***​"

/-- `fix_formatted_separator`: remove every non-property child, set the
text to the marker, then delete the `w:pBdr` declaration (if any) from
the (possibly freshly added) properties element. -/
def fixFormattedSeparator (p : OxmlP) : OxmlP :=
  let p1 := removeNonPPrChildren p
  let p2 := setParagraphText p1 separatorMarker
  let pr := (getOrAddPPr p2).1
  let p3 := (getOrAddPPr p2).2
  { p3 with pPr := some { pr with pBdr := none } }

/-- python-docx `Paragraph.text`: the concatenation of the run texts. -/
def paraText (p : OxmlP) : String :=
  String.join (p.content.map (fun c => match c with | PContent.run t => t | _ => ""))

/-- Whether the paragraph declares a `w:pBdr` border. -/
def paragraphHasBorderDecl (p : OxmlP) : Bool :=
  match p.pPr with
  | some pr => pr.pBdr.isSome
  | none => false

/-- Whether the paragraph still embeds a shape or drawing. -/
def paragraphHasShape (p : OxmlP) : Bool :=
  p.content.any (fun c => match c with | PContent.run _ => false | _ => true)

/-! ### Specification-side definitions

These follow the wording of the specification / claims, to be compared
with the source-derived definitions above. -/

/-- Spec wording, integer mode: "Walk an `expected` counter starting at
the first major; for each encountered major, while `expected < major`,
record `Глава <expected>` as missing and increment; then set
`expected = major + 1`." -/
def specIntegerMissing (majors : List Nat) : List String :=
  match majors with
  | [] => []
  | n :: rest => intWalk n (n :: rest)

/-- Spec wording, decimal mode, carrying the previous major and its
maximum minor: synthesize skipped majors with minors
`1..max(prev_major_max_minor, 1)`; per major walk the deduplicated
ascending minors from `expected_minor = 1`; when the maximum minor
decreases, fill `(current_max_minor+1 .. prev_major_max_minor)` under
the current major. -/
def specDecLoop : List (Nat × List Nat) → Option (Nat × Nat) → List String
  | [], _ => []
  | g :: rest, prev =>
    let major := g.1
    let gapPart :=
      match prev with
      | some pp =>
        if pp.1 + 1 < major then
          ((List.range' (pp.1 + 1) (major - pp.1 - 1)).map
            (fun gm => (List.range' 1 (max pp.2 1)).map (fun mi => formatChapterNumber (gm, some mi)))).flatten
        else []
      | none => []
    let om := sortedDedup g.2
    let walk := minorWalk major 1 om
    let curMax := om.getLast?.getD 0
    let decPart :=
      match prev with
      | some pp =>
        if curMax < pp.2 then
          (List.range' (curMax + 1) (pp.2 - curMax)).map (fun v => formatChapterNumber (major, some v))
        else []
      | none => []
    gapPart ++ walk ++ decPart ++ specDecLoop rest (some (major, curMax))

/-- Spec wording, decimal mode on the minor-bearing label pairs. -/
def specDecimalMissing (ps : List (Nat × Nat)) : List String :=
  specDecLoop (groupByMajor ps) none

/-- Claim wording for the even split: "the split point is the first
1-based index at which cumulative weight ≥ total/2". -/
def specFirstSplitIdx (ws : List Nat) : Nat :=
  ((List.range' 1 ws.length).find? (fun i => ws.sum ≤ 2 * ((ws.take i).sum))).getD ws.length

/-- Claim wording: the split point clamped into `[1, len - 1]`. -/
def specSplitPoint (ps : List String) : Nat :=
  min (max (specFirstSplitIdx (ps.map paragraphWeight)) 1) (ps.length - 1)

/-- Claim wording for the duplicate-detection content key, as written:
"concatenating its paragraph texts with a newline separator and
stripping" (the paragraph texts as they stand in the document). -/
def chapterContentKeyRaw (ps : List String) : String :=
  stripS (String.intercalate "\n" ps)

/-- The content key the code actually computes: the newline join of the
*stripped* paragraph texts, stripped. -/
def chapterContentKeyStripped (ps : List String) : String :=
  stripS (String.intercalate "\n" (ps.map stripS))

/-- Spec-side duplicate detection, parameterized by the content key:
segment with the (case-insensitive) heading test of
`find_duplicate_chapters`, key each chapter, group by identical key in
first-seen order, and emit the groups with at least two members. -/
def specDuplicatesWith (key : List String → String) (paras : List String) : List (List String × String) :=
  let chapters := (segmentLoop dupIsHeading paras none).map (fun ch => (ch.1, key ch.2))
  let m := chapters.foldl (fun acc ch => insertContent acc ch.2 ch.1) []
  (m.filter (fun kv => 2 ≤ kv.2.length)).map (fun kv => (kv.2, kv.1))

/-- Duplicate detection as the claim words it (raw paragraph texts). -/
def specDuplicatesRaw (paras : List String) : List (List String × String) :=
  specDuplicatesWith chapterContentKeyRaw paras

/-- Duplicate detection with the key the code computes. -/
def specDuplicatesStripped (paras : List String) : List (List String × String) :=
  specDuplicatesWith chapterContentKeyStripped paras

/-! ### Basic facts about the decimal rendering -/

theorem toDecAux_congr : ∀ f g n, n < f → n < g → toDecAux f n = toDecAux g n := by
  intro f
  induction f with
  | zero => intro g n h; omega
  | succ f ih =>
    intro g n hf hg
    cases g with
    | zero => omega
    | succ g =>
      by_cases h10 : n < 10
      · simp [toDecAux, h10]
      · have hdiv : n / 10 < n := Nat.div_lt_self (by omega) (by omega)
        simp only [toDecAux, h10, if_false]
        rw [ih g (n / 10) (by omega) (by omega)]

theorem digitChar_toNat {d : Nat} (hd : d < 10) : (digitChar d).toNat - 48 = d := by
  interval_cases d <;> rfl

theorem digitChar_isDigit {d : Nat} (hd : d < 10) : isDigitChar (digitChar d) = true := by
  interval_cases d <;> rfl

theorem toDec_break {n : Nat} (h : ¬ n < 10) :
    toDec n = toDec (n / 10) ++ [digitChar (n % 10)] := by
  have hdiv : n / 10 < n := Nat.div_lt_self (by omega) (by omega)
  have e : toDecAux (n + 1) n = toDecAux n (n / 10) ++ [digitChar (n % 10)] := by
    show (if n < 10 then [digitChar n] else toDecAux n (n / 10) ++ [digitChar (n % 10)]) = _
    rw [if_neg h]
  show toDecAux (n + 1) n = toDecAux (n / 10 + 1) (n / 10) ++ [digitChar (n % 10)]
  rw [e, toDecAux_congr n (n / 10 + 1) (n / 10) (by omega) (by omega)]

theorem ofDec_toDec : ∀ n, ofDec (toDec n) = n := by
  intro n
  induction n using Nat.strong_induction_on with
  | _ n ih =>
    by_cases h : n < 10
    · show ofDec (toDecAux (n + 1) n) = n
      simp [toDecAux, h, ofDec, digitChar_toNat h]
    · rw [toDec_break h]
      have hdiv : n / 10 < n := Nat.div_lt_self (by omega) (by omega)
      have hmod : n % 10 < 10 := Nat.mod_lt _ (by omega)
      show List.foldl _ 0 _ = n
      rw [List.foldl_append]
      have : List.foldl (fun a c => 10 * a + (c.toNat - 48)) 0 (toDec (n / 10)) = n / 10 := ih (n / 10) hdiv
      simp only [this, List.foldl_cons, List.foldl_nil, digitChar_toNat hmod]
      omega

theorem toDec_injective : Function.Injective toDec := by
  intro m n h
  have := congrArg ofDec h
  simpa [ofDec_toDec] using this

theorem toDec_digits : ∀ n c, c ∈ toDec n → isDigitChar c = true := by
  intro n
  induction n using Nat.strong_induction_on with
  | _ n ih =>
    intro c hc
    by_cases h : n < 10
    · have : toDec n = [digitChar n] := by simp [toDec, toDecAux, h]
      rw [this] at hc
      simp at hc
      exact hc ▸ digitChar_isDigit h
    · rw [toDec_break h] at hc
      have hdiv : n / 10 < n := Nat.div_lt_self (by omega) (by omega)
      rcases List.mem_append.1 hc with h1 | h2
      · exact ih (n / 10) hdiv c h1
      · simp at h2
        exact h2 ▸ digitChar_isDigit (Nat.mod_lt _ (by omega))

/-! ### C9 and C10: the separator normalizer -/

/-- C9: running `fix_formatted_separator` twice is the same as running it
once; a normalized paragraph's text is the marker and it has neither a
border declaration nor an embedded shape, so renormalizing an
already-normalized paragraph is a no-op. -/
theorem fix_formatted_separator_idempotent (p : OxmlP) :
    fixFormattedSeparator (fixFormattedSeparator p) = fixFormattedSeparator p ∧
    paraText (fixFormattedSeparator p) = separatorMarker ∧
    paragraphHasBorderDecl (fixFormattedSeparator p) = false ∧
    paragraphHasShape (fixFormattedSeparator p) = false := by
  obtain ⟨pq, content⟩ := p
  cases pq with
  | none => exact ⟨rfl, rfl, rfl, rfl⟩
  | some pr => exact ⟨rfl, rfl, rfl, rfl⟩

/-- C10: `fix_formatted_separator` changes only the content children and
the `w:pBdr` declaration: every other paragraph-level property survives
unchanged, the border is removed, and the content becomes the single
marker run. -/
theorem fix_formatted_separator_frame (p : OxmlP) :
    (fixFormattedSeparator p).content = [PContent.run separatorMarker] ∧
    (fixFormattedSeparator p).pPr = some ⟨none, (p.pPr.getD ⟨none, []⟩).others⟩ := by
  obtain ⟨pq, content⟩ := p
  cases pq with
  | none => exact ⟨rfl, rfl⟩
  | some pr => exact ⟨rfl, rfl⟩

/-! ### C1: segmentation preserves the non-heading text -/

theorem segmentLoop_some_flat (isH : String → Bool) :
    ∀ (paras : List String) (t : String) (acc : List String),
      ((segmentLoop isH paras (some (t, acc))).map Prod.snd).flatten =
        acc ++ paras.filter (fun p => !(isH p)) := by
  intro paras
  induction paras with
  | nil => intro t acc; simp [segmentLoop]
  | cons p rest ih =>
    intro t acc
    by_cases h : isH p
    · simp [segmentLoop, h, List.filter_cons, ih]
    · simp [segmentLoop, h, List.filter_cons, ih]

theorem segmentLoop_none_flat (isH : String → Bool) :
    ∀ paras : List String,
      ((segmentLoop isH paras none).map Prod.snd).flatten =
        (paras.dropWhile (fun p => !(isH p))).filter (fun p => !(isH p)) := by
  intro paras
  induction paras with
  | nil => simp [segmentLoop]
  | cons p rest ih =>
    by_cases h : isH p
    · simp [segmentLoop, h, List.dropWhile_cons, List.filter_cons, segmentLoop_some_flat]
    · simp [segmentLoop, h, List.dropWhile_cons, ih]

/-- C1 (amended): concatenating the paragraph texts of the chapters
produced by `split_document`, in chapter and paragraph order, reproduces
exactly the non-heading paragraph text occurring at or after the first
heading of the document (the paragraphs before the first heading are
discarded by the segmentation loop). -/
theorem split_document_concat (paras : List String) :
    ((splitDocument paras).map Prod.snd).flatten =
      (paras.dropWhile (fun p => !(segIsHeading p))).filter (fun p => !(segIsHeading p)) :=
  segmentLoop_none_flat segIsHeading paras

/-- C1 counterexample: a document with a non-heading paragraph before its
first heading.  The claim as stated requires the chapters' concatenation
to reproduce ALL non-heading paragraph text, but `"intro"` is lost. -/
theorem split_document_concat_counterexample :
    ¬ (((splitDocument ["intro", "Глава 1", "body"]).map Prod.snd).flatten =
        (["intro", "Глава 1", "body"].filter (fun p => !(segIsHeading p)))) := by
  decide

/-! ### C2: the audit result is a flat missing list -/

/-- C2 (code bug): on the fixture of the repository's own test
`test_duplicate_chapters` (headings 1, 2, 2, 3), `find_missing_chapters`
returns the flat empty list, although the heading label 2 occurs twice:
the function exposes no duplicates (nor unexpected) category at all,
while the test suite expects `{"missing": [], "duplicates": ["Глава 2"],
"unexpected": []}`. -/
theorem find_missing_chapters_flat_at_duplicate_fixture :
    findMissingChapters
        ["Глава 1", "Content", "Глава 2", "Content", "Глава 2", "Content", "Глава 3", "Content"] = [] ∧
    (extractNums
        ["Глава 1", "Content", "Глава 2", "Content", "Глава 2", "Content", "Глава 3", "Content"]).map
        (fun r => ofDec r.1) = [1, 2, 2, 3] := by
  decide

/-! ### C3: integer mode of the numbering audit -/

/-- C3: when no extracted heading label has a minor part, the audit is
the integer-mode walk: an `expected` counter starts at the first major;
for each encountered major the entries `expected, …, major - 1` are
recorded as missing, then `expected` becomes `major + 1`; equal or
decreasing majors therefore add nothing. -/
theorem find_missing_integer_mode (paras : List String)
    (h : ∀ r ∈ extractNums paras, r.2 = none) :
    findMissingChapters paras =
      specIntegerMissing ((extractNums paras).map (fun r => ofDec r.1)) := by
  unfold findMissingChapters specIntegerMissing
  by_cases hr : extractNums paras = []
  · simp [hr]
  · have hall : (extractNums paras).all (fun r => r.2 = none) = true := by
      rw [List.all_eq_true]
      intro r hrm
      simp [h r hrm]
    simp only [hr, if_false, hall, if_true]

/-- Witness for C3, on the spec's own example: labels 1, 2, 4 produce
missing = ["Глава 3"]. -/
theorem find_missing_integer_mode_witness :
    (∀ r ∈ extractNums ["Глава 1", "Глава 2", "Глава 4"], r.2 = none) ∧
    findMissingChapters ["Глава 1", "Глава 2", "Глава 4"] = ["Глава 3"] := by
  refine ⟨by decide, ?_⟩
  rw [find_missing_integer_mode _ (by decide)]
  decide

/-! ### C5: the even splitter -/

theorem find?_range'_eq {p : Nat → Bool} :
    ∀ (n a r : Nat), a ≤ r → r < a + n → p r = true →
      (∀ m, a ≤ m → m < r → p m = false) → (List.range' a n).find? p = some r := by
  intro n
  induction n with
  | zero => intro a r h1 h2; omega
  | succ n ih =>
    intro a r h1 h2 h3 h4
    rw [List.range'_succ, List.find?_cons]
    by_cases hpa : p a = true
    · have : r = a := by
        by_contra hne
        have := h4 a (le_refl a) (by omega)
        rw [this] at hpa
        exact absurd hpa (by simp)
      simp [hpa, this]
    · have hra : a < r := by
        rcases Nat.lt_or_ge a r with hlt | hge
        · exact hlt
        · have : r = a := by omega
          rw [this] at h3
          exact absurd h3 hpa
      have hfa : p a = false := by
        cases hv : p a
        · rfl
        · exact absurd hv hpa
      simp only [hfa]
      exact ih (a + 1) r (by omega) (by omega) h3 (fun m hm1 hm2 => h4 m (by omega) hm2)

theorem splitIndexLoop_spec :
    ∀ (ws : List Nat) (total cum idx dflt : Nat), ws ≠ [] → total ≤ 2 * (cum + ws.sum) →
      ∃ k, k < ws.length ∧ splitIndexLoop ws total cum idx dflt = idx + k ∧
        total ≤ 2 * (cum + ((ws.take (k + 1)).sum)) ∧
        ∀ m, m < k → 2 * (cum + ((ws.take (m + 1)).sum)) < total := by
  intro ws
  induction ws with
  | nil => simp
  | cons w ws ih =>
    intro total cum idx dflt _ htot
    by_cases h : total ≤ 2 * (cum + w)
    · refine ⟨0, by simp, by simp [splitIndexLoop, h], by simpa using h, by omega⟩
    · have hws : ws ≠ [] := by
        rintro rfl
        simp at htot
        omega
      have htot' : total ≤ 2 * ((cum + w) + ws.sum) := by
        rw [List.sum_cons] at htot
        omega
      obtain ⟨k, hk1, hk2, hk3, hk4⟩ := ih total (cum + w) (idx + 1) dflt hws htot'
      refine ⟨k + 1, by simpa using Nat.succ_lt_succ hk1, ?_, ?_, ?_⟩
      · rw [show splitIndexLoop (w :: ws) total cum idx dflt
            = splitIndexLoop ws total (cum + w) (idx + 1) dflt from by simp [splitIndexLoop, h]]
        omega
      · rw [List.take_succ_cons, List.sum_cons]
        omega
      · intro m hm
        cases m with
        | zero =>
          rw [List.take_succ_cons, List.take_zero, List.sum_cons, List.sum_nil]
          omega
        | succ m =>
          have := hk4 m (by omega)
          rw [List.take_succ_cons, List.sum_cons]
          omega

theorem saveSplitIndex_eq_spec (ps : List String) (h2 : 2 ≤ ps.length) :
    saveSplitIndex ps = specSplitPoint ps := by
  have hlen : (ps.map paragraphWeight).length = ps.length := by simp
  have hne : ps.map paragraphWeight ≠ [] := by
    rw [← List.length_pos_iff_ne_nil]
    omega
  have htot : (ps.map paragraphWeight).sum ≤ 2 * (0 + (ps.map paragraphWeight).sum) := by omega
  obtain ⟨k, hk1, hk2, hk3, hk4⟩ :=
    splitIndexLoop_spec (ps.map paragraphWeight) (ps.map paragraphWeight).sum 0 1
      (ps.length / 2) hne htot
  have hfind : (List.range' 1 (ps.map paragraphWeight).length).find?
      (fun i => decide ((ps.map paragraphWeight).sum ≤ 2 * (((ps.map paragraphWeight).take i).sum)))
      = some (1 + k) := by
    apply find?_range'_eq
    · omega
    · omega
    · have h3 : (ps.map paragraphWeight).sum
          ≤ 2 * (((ps.map paragraphWeight).take (1 + k)).sum) := by
        rw [Nat.add_comm 1 k]
        simpa using hk3
      simp only [decide_eq_true_eq]
      exact h3
    · intro m hm1 hm2
      have hm0 : m - 1 < k := by omega
      have := hk4 (m - 1) hm0
      simp only [decide_eq_false_iff_not]
      have hmeq : m - 1 + 1 = m := by omega
      rw [hmeq] at this
      omega
  have hspec : specFirstSplitIdx (ps.map paragraphWeight) = 1 + k := by
    unfold specFirstSplitIdx
    rw [hfind]
    rfl
  have hcode : saveSplitIndex ps =
      (if (if ps.length ≤ splitIndexLoop (ps.map paragraphWeight) (ps.map paragraphWeight).sum 0 1
              (ps.length / 2)
            then ps.length - 1
            else splitIndexLoop (ps.map paragraphWeight) (ps.map paragraphWeight).sum 0 1
              (ps.length / 2)) = 0
        then 1
        else if ps.length ≤ splitIndexLoop (ps.map paragraphWeight) (ps.map paragraphWeight).sum 0 1
              (ps.length / 2)
            then ps.length - 1
            else splitIndexLoop (ps.map paragraphWeight) (ps.map paragraphWeight).sum 0 1
              (ps.length / 2)) := rfl
  rw [hk2] at hcode
  rw [hcode]
  unfold specSplitPoint
  rw [hspec]
  have hmax : max (1 + k) 1 = 1 + k := by omega
  rw [hmax]
  by_cases hcl : ps.length ≤ 1 + k
  · rw [if_pos hcl, if_neg (show ¬ ps.length - 1 = 0 by omega)]
    omega
  · rw [if_neg hcl, if_neg (show ¬ 1 + k = 0 by omega)]
    omega

/-- C5: a chapter with fewer than two paragraphs is skipped by
`_save_split` (its label lands in the skipped list, no parts are
produced); otherwise the chapter is split at the first 1-based index at
which the cumulative paragraph weight (weight = `max(1, |stripped
text|)`) reaches half the total weight, clamped into `[1, len - 1]`, so
both halves are non-empty and concatenate, in order, to exactly the
original paragraph sequence. -/
theorem save_split_correct (ps : List String) :
    (ps.length < 2 → saveSplitParts ps = none) ∧
    (2 ≤ ps.length →
      saveSplitParts ps = some (ps.take (specSplitPoint ps), ps.drop (specSplitPoint ps)) ∧
      1 ≤ (ps.take (specSplitPoint ps)).length ∧
      1 ≤ (ps.drop (specSplitPoint ps)).length ∧
      ps.take (specSplitPoint ps) ++ ps.drop (specSplitPoint ps) = ps) ∧
    (∀ (paras : List String) (ch : String × List String),
      ch ∈ twoChapters paras → saveSplitParts ch.2 = none → ch.1 ∈ twoSkippedLabels paras) := by
    refine ⟨?_, ?_, ?_⟩
    · intro h
      unfold saveSplitParts
      rw [if_pos h]
    · intro h2
      have hidx := saveSplitIndex_eq_spec ps h2
      have hle : specSplitPoint ps ≤ ps.length - 1 := by
        unfold specSplitPoint
        omega
      have hge : 1 ≤ specSplitPoint ps := by
        unfold specSplitPoint
        have : 1 ≤ ps.length - 1 := by omega
        omega
      have hdroplen : 1 ≤ (ps.drop (specSplitPoint ps)).length := by
        rw [List.length_drop]
        omega
      have hdropne : ps.drop (specSplitPoint ps) ≠ [] := by
        rw [← List.length_pos_iff_ne_nil]
        omega
      refine ⟨?_, ?_, hdroplen, List.take_append_drop _ _⟩
      · unfold saveSplitParts
        rw [if_neg (by omega), hidx, if_neg hdropne]
      · rw [List.length_take]
        have : specSplitPoint ps ⊓ ps.length = specSplitPoint ps := by
          simp only [inf_eq_left]
          omega
        rw [this]
        exact hge
    · intro paras ch hmem hnone
      unfold twoSkippedLabels
      rw [List.mem_filterMap]
      exact ⟨ch, hmem, by rw [hnone]; simp⟩

/-- Witness for C5 at a three-paragraph chapter: the weights are 2, 1, 1,
so the first half is the first paragraph alone. -/
theorem save_split_correct_witness :
    (2 ≤ (["ab", "c", "d"] : List String).length) ∧
    saveSplitParts ["ab", "c", "d"] = some (["ab"], ["c", "d"]) := by
  refine ⟨by decide, ?_⟩
  rw [((save_split_correct ["ab", "c", "d"]).2.1 (by decide)).1]
  decide

/-! ### C6: which operations recognize which headings -/

theorem matchLiteral_lower :
    ∀ (lit g rest : List Char), g.map lowerChar = lit.map lowerChar →
      matchLiteral true lit (g ++ rest) = some rest := by
  intro lit
  induction lit with
  | nil =>
    intro g rest hg
    have : g = [] := by simpa using hg
    subst this
    rfl
  | cons l ls ih =>
    intro g rest hg
    cases g with
    | nil => simp at hg
    | cons c g' =>
      simp only [List.map_cons, List.cons.injEq] at hg
      simp only [List.cons_append, matchLiteral, hg.1, if_true]
      exact ih g' rest hg.2

theorem matchLiteral_exact :
    ∀ (lit rest : List Char), matchLiteral false lit (lit ++ rest) = some rest := by
  intro lit
  induction lit with
  | nil => intro rest; rfl
  | cons l ls ih =>
    intro rest
    simp only [List.cons_append, matchLiteral, if_true]
    exact ih rest

theorem matchLiteral_forces :
    ∀ (lit g tail : List Char) (r : List Char), g.length = lit.length →
      matchLiteral false lit (g ++ tail) = some r → g = lit := by
  intro lit
  induction lit with
  | nil =>
    intro g tail r hlen _
    exact List.length_eq_zero.1 hlen
  | cons l ls ih =>
    intro g tail r hlen hm
    cases g with
    | nil => simp at hlen
    | cons c g' =>
      simp only [List.cons_append, matchLiteral] at hm
      have hm' : (if c = l then matchLiteral false ls (g' ++ tail) else none) = some r := hm
      by_cases hc : c = l
      · rw [if_pos hc] at hm'
        rw [hc, ih g' tail r (by simpa using hlen) hm']
      · rw [if_neg hc] at hm'
        exact absurd hm' (by simp)

theorem dropWhile_append_all {P : Char → Bool} :
    ∀ (a b : List Char), (∀ x ∈ a, P x = true) →
      (a ++ b).dropWhile P = b.dropWhile P := by
  intro a
  induction a with
  | nil => intro b _; rfl
  | cons x a' ih =>
    intro b h
    simp only [List.cons_append, List.dropWhile_cons, h x (by simp), if_true]
    exact ih b (fun y hy => h y (by simp [hy]))

theorem digit_not_space (c : Char) (h : isDigitChar c = true) : isSpaceChar c = false := by
  by_contra hs
  have hs' : isSpaceChar c = true := by
    cases hv : isSpaceChar c
    · exact absurd hv hs
    · rfl
  simp only [isSpaceChar, Bool.or_eq_true, decide_eq_true_eq] at hs'
  rcases hs' with ((((h1 | h1) | h1) | h1) | h1) | h1 <;>
    (subst h1; exact absurd h (by decide))

theorem headingGroups_ci_some (g sp ds rest : List Char)
    (hg : g.map lowerChar = glavaChars.map lowerChar)
    (hsp : sp ≠ []) (hsps : ∀ c ∈ sp, isSpaceChar c = true)
    (hds : ds ≠ []) (hdss : ∀ c ∈ ds, isDigitChar c = true) :
    (headingGroups true (g ++ (sp ++ (ds ++ rest)))).isSome = true := by
  obtain ⟨c, sp', rfl⟩ := List.exists_cons_of_ne_nil hsp
  obtain ⟨d, ds', rfl⟩ := List.exists_cons_of_ne_nil hds
  have hc : isSpaceChar c = true := hsps c (by simp)
  have hd : isDigitChar d = true := hdss d (by simp)
  have hdns : isSpaceChar d = false := digit_not_space d hd
  unfold headingGroups
  rw [matchLiteral_lower glavaChars g (c :: sp' ++ (d :: ds' ++ rest)) hg]
  simp only [List.cons_append, hc, if_true]
  have hdrop : (sp' ++ (d :: (ds' ++ rest))).dropWhile isSpaceChar = d :: (ds' ++ rest) := by
    rw [dropWhile_append_all sp' _ (fun y hy => hsps y (by simp [hy]))]
    rw [List.dropWhile_cons, hdns]
    simp
  rw [hdrop]
  rw [List.takeWhile_cons, hd]
  simp only [if_true, reduceCtorEq, if_false]
  split
  · split
    · rfl
    · rfl
  · rfl

/-- C6 (amended): every paragraph whose trimmed text begins with the word
`Глава` in any letter case, then whitespace, then digits (optionally dot
and digits, then anything) is recognized as a chapter heading by the
case-insensitive operations — even splitting, duplicate detection and
the numbering audit; segmentation (`split_document`), whose pattern has
no IGNORECASE flag, recognizes it exactly when the word is written
literally `Глава`. -/
theorem heading_recognition (text : String) (g sp ds rest : List Char)
    (hdecomp : stripL text.data = g ++ (sp ++ (ds ++ rest)))
    (hg : g.map lowerChar = glavaChars.map lowerChar)
    (hsp : sp ≠ []) (hsps : ∀ c ∈ sp, isSpaceChar c = true)
    (hds : ds ≠ []) (hdss : ∀ c ∈ ds, isDigitChar c = true) :
    (twoHeadingMatch text).isSome = true ∧
    dupIsHeading text = true ∧
    (missHeadingMatch text).isSome = true ∧
    (segIsHeading text = true ↔ g = glavaChars) := by
  have hci : (headingGroups true (stripL text.data)).isSome = true := by
    rw [hdecomp]
    exact headingGroups_ci_some g sp ds rest hg hsp hsps hds hdss
  refine ⟨hci, hci, hci, ?_⟩
  constructor
  · intro hseg
    unfold segIsHeading headingMatch headingGroups at hseg
    rw [hdecomp] at hseg
    cases hm : matchLiteral false glavaChars (g ++ (sp ++ (ds ++ rest))) with
    | none => rw [hm] at hseg; exact absurd hseg (by simp)
    | some r =>
      have hglen : g.length = glavaChars.length := by
        have := congrArg List.length hg
        simpa using this
      exact matchLiteral_forces glavaChars g (sp ++ (ds ++ rest)) r hglen hm
  · intro hgeq
    subst hgeq
    unfold segIsHeading headingMatch headingGroups
    rw [hdecomp, matchLiteral_exact glavaChars (sp ++ (ds ++ rest))]
    obtain ⟨c, sp', rfl⟩ := List.exists_cons_of_ne_nil hsp
    obtain ⟨d, ds', rfl⟩ := List.exists_cons_of_ne_nil hds
    have hc : isSpaceChar c = true := hsps c (by simp)
    have hd : isDigitChar d = true := hdss d (by simp)
    have hdns : isSpaceChar d = false := digit_not_space d hd
    simp only [List.cons_append, hc, if_true]
    have hdrop : (sp' ++ (d :: (ds' ++ rest))).dropWhile isSpaceChar = d :: (ds' ++ rest) := by
      rw [dropWhile_append_all sp' _ (fun y hy => hsps y (by simp [hy]))]
      rw [List.dropWhile_cons, hdns]
      simp
    rw [hdrop]
    rw [List.takeWhile_cons, hd]
    simp only [if_true, reduceCtorEq, if_false]
    split
    · split
      · rfl
      · rfl
    · rfl

/-- Witness for C6 at the heading `Глава 12.3x` (with trailing text). -/
theorem heading_recognition_witness :
    (twoHeadingMatch "Глава 12.3x").isSome = true ∧
    dupIsHeading "Глава 12.3x" = true ∧
    (missHeadingMatch "Глава 12.3x").isSome = true ∧
    (segIsHeading "Глава 12.3x" = true ↔ "Глава".data = glavaChars) :=
  heading_recognition "Глава 12.3x" "Глава".data [' '] "12".data ".3x".data
    (by decide) (by decide) (by decide) (by decide) (by decide) (by decide)

/-- C6 counterexample: the lowercase heading `глава 1` satisfies the
claim's shape (the trimmed text begins with the word `Глава`
case-insensitively, whitespace, digits) and is recognized by the
case-insensitive operations, but `split_document`'s case-sensitive
pattern does not match it: the segmentation produces no chapter at all
for such a document. -/
theorem heading_recognition_counterexample :
    dupIsHeading "глава 1" = true ∧
    (twoHeadingMatch "глава 1").isSome = true ∧
    segIsHeading "глава 1" = false ∧
    splitDocument ["глава 1", "body"] = [] := by
  decide

/-! ### C7: duplicate detection -/

theorem dupLoop_some_eq :
    ∀ (paras : List String) (t : String) (acc : List String),
      dupLoop paras (some (t, acc.map stripS)) =
        (segmentLoop dupIsHeading paras (some (t, acc))).map
          (fun ch => (ch.1, chapterContentKeyStripped ch.2)) := by
  intro paras
  induction paras with
  | nil =>
    intro t acc
    simp [dupLoop, segmentLoop, chapterContentKeyStripped]
  | cons p rest ih =>
    intro t acc
    by_cases h : dupIsHeading p
    · simp only [dupLoop, segmentLoop, h, if_true, List.map_cons]
      congr 1
      simpa using ih (stripS p) []
    · simp only [dupLoop, segmentLoop, h, if_false]
      have hmap : acc.map stripS ++ [stripS p] = (acc ++ [p]).map stripS := by simp
      rw [hmap]
      exact ih t (acc ++ [p])

theorem dupLoop_none_eq :
    ∀ paras : List String,
      dupLoop paras none =
        (segmentLoop dupIsHeading paras none).map
          (fun ch => (ch.1, chapterContentKeyStripped ch.2)) := by
  intro paras
  induction paras with
  | nil => rfl
  | cons p rest ih =>
    by_cases h : dupIsHeading p
    · simp only [dupLoop, segmentLoop, h, if_true]
      simpa using dupLoop_some_eq rest (stripS p) []
    · simp only [dupLoop, segmentLoop, h, if_false]
      exact ih

/-- C7 (amended): `find_duplicate_chapters` computes each chapter's
content key as the newline join of the chapter's *stripped* paragraph
texts, stripped (empty content being a valid key), groups chapter labels
by identical key preserving first-seen group order, and emits exactly
the groups with at least two members, pairing the member labels in
original order with the shared content string. -/
theorem find_duplicates_amended (paras : List String) :
    findDuplicateChapters paras = specDuplicatesStripped paras := by
  unfold findDuplicateChapters specDuplicatesStripped specDuplicatesWith
  rw [dupLoop_none_eq]

/-- C7 counterexample: two chapters whose raw paragraph texts differ by
a trailing space inside the chapter (`"a "` vs `"a"`).  Under the
claim's key (join of the raw texts, then strip) the chapters are NOT
identical, so the claim predicts no duplicate group — but the code
strips every paragraph before joining and does report them as one
duplicate group. -/
theorem find_duplicates_counterexample :
    findDuplicateChapters ["Глава 1", "a ", "b", "Глава 2", "a", "b"] =
      [(["Глава 1", "Глава 2"], "a\nb")] ∧
    specDuplicatesRaw ["Глава 1", "a ", "b", "Глава 2", "a", "b"] = [] := by
  decide

/-! ### C8: unique output file names -/

theorem append_sep_inj {P : Char → Bool} {q : Char} (hsep : P q = false) :
    ∀ (a c b d : List Char), (∀ x ∈ a, P x = true) → (∀ x ∈ c, P x = true) →
      a ++ q :: b = c ++ q :: d → a = c ∧ b = d := by
  intro a
  induction a with
  | nil =>
    intro c b d _ hc heq
    cases c with
    | nil => simpa using heq
    | cons y c' =>
      simp only [List.nil_append, List.cons_append, List.cons.injEq] at heq
      have hy := hc y (by simp)
      rw [← heq.1] at hy
      rw [hsep] at hy
      exact absurd hy (by simp)
  | cons x a' ih =>
    intro c b d ha hc heq
    cases c with
    | nil =>
      simp only [List.cons_append, List.nil_append, List.cons.injEq] at heq
      have hx := ha x (by simp)
      rw [heq.1, hsep] at hx
      exact absurd hx (by simp)
    | cons y c' =>
      simp only [List.cons_append, List.cons.injEq] at heq
      obtain ⟨h1, h2⟩ := heq
      obtain ⟨ha', hb'⟩ := ih c' b d (fun z hz => ha z (by simp [hz]))
        (fun z hz => hc z (by simp [hz])) h2
      exact ⟨by rw [h1, ha'], hb'⟩

theorem candName_inj (base ext : List Char) :
    ∀ m n, candName base ext m = candName base ext n → m = n := by
  intro m n h
  unfold candName at h
  rw [List.append_assoc, List.append_assoc] at h
  have h1 := List.append_cancel_left h
  simp only [List.cons_append, List.cons.injEq, true_and] at h1
  have h2 := (append_sep_inj (P := isDigitChar) (q := ')') (by decide)
    (toDec m) (toDec n) ext ext (toDec_digits m) (toDec_digits n) h1).1
  exact toDec_injective h2

theorem uniqueGo_spec (existing : List (List Char)) (b e : List Char) :
    ∀ (fuel counter : Nat),
      (∃ k, counter ≤ k ∧ k < counter + fuel ∧ candName b e k ∉ existing) →
      ∃ n, counter ≤ n ∧ uniqueGo existing b e counter fuel = candName b e n ∧
        candName b e n ∉ existing ∧
        ∀ m, counter ≤ m → m < n → candName b e m ∈ existing := by
  intro fuel
  induction fuel with
  | zero =>
    intro counter hex
    obtain ⟨k, h1, h2, _⟩ := hex
    omega
  | succ fuel ih =>
    intro counter hex
    obtain ⟨k, hk1, hk2, hk3⟩ := hex
    have hstep : uniqueGo existing b e counter (fuel + 1) =
        if candName b e counter ∈ existing then uniqueGo existing b e (counter + 1) fuel
        else candName b e counter := rfl
    by_cases h : candName b e counter ∈ existing
    · have hkc : k ≠ counter := by
        rintro rfl
        exact hk3 h
      obtain ⟨n, hn1, hn2, hn3, hn4⟩ := ih (counter + 1) ⟨k, by omega, by omega, hk3⟩
      refine ⟨n, by omega, ?_, hn3, ?_⟩
      · rw [hstep, if_pos h]
        exact hn2
      · intro m hm1 hm2
        by_cases hmc : m = counter
        · rw [hmc]
          exact h
        · exact hn4 m (by omega) hm2
    · refine ⟨counter, le_refl _, ?_, h, ?_⟩
      · rw [hstep, if_neg h]
      · intro m hm1 hm2
        omega

theorem exists_fresh (existing : List (List Char)) (b e : List Char) :
    ∃ k, 2 ≤ k ∧ k < 2 + (existing.length + 1) ∧ candName b e k ∉ existing := by
  by_contra hcon
  push_neg at hcon
  have hsub : ((List.range (existing.length + 1)).map (fun i => candName b e (2 + i))) ⊆ existing := by
    intro x hx
    rw [List.mem_map] at hx
    obtain ⟨i, hi, rfl⟩ := hx
    rw [List.mem_range] at hi
    exact hcon (2 + i) (by omega) (by omega)
  have hinj : Function.Injective (fun i => candName b e (2 + i)) := by
    intro i j hij
    have := candName_inj b e (2 + i) (2 + j) hij
    omega
  have hnodup := (List.nodup_range (existing.length + 1)).map hinj
  have hle := (hnodup.subperm hsub).length_le
  simp at hle

/-- C8: no file is ever silently overwritten: the name returned by
`_unique_path` never collides with an existing file; a fresh file name
is used as is; a colliding file name gets the first free `" (N)"`
suffix with `N` counting up from 2 (every smaller suffix being taken);
and `split_document` on two chapters both titled `Глава 1` creates
exactly the files `Глава 1.docx` and `Глава 1 (2).docx`. -/
theorem unique_path_no_overwrite (existing : List (List Char)) (filename : List Char) :
    uniquePath existing filename ∉ existing ∧
    (filename ∉ existing → uniquePath existing filename = filename) ∧
    (filename ∈ existing →
      ∃ n, 2 ≤ n ∧
        uniquePath existing filename = candName (splitExt filename).1 (splitExt filename).2 n ∧
        ∀ m, 2 ≤ m → m < n →
          candName (splitExt filename).1 (splitExt filename).2 m ∈ existing) ∧
    splitDocumentFiles [] ["Глава 1", "Text for chapter 1", "Глава 1", "Another text"] =
      ["Глава 1.docx".data, "Глава 1 (2).docx".data] := by
  by_cases hf : filename ∈ existing
  · obtain ⟨n, hn1, hn2, hn3, hn4⟩ :=
      uniqueGo_spec existing (splitExt filename).1 (splitExt filename).2 (existing.length + 1) 2
        (exists_fresh existing _ _)
    have hup : uniquePath existing filename =
        uniqueGo existing (splitExt filename).1 (splitExt filename).2 2 (existing.length + 1) := by
      unfold uniquePath
      rw [if_pos hf]
    refine ⟨?_, fun hc => absurd hf hc, fun _ => ⟨n, hn1, by rw [hup]; exact hn2, hn4⟩, ?_⟩
    · rw [hup, hn2]
      exact hn3
    · decide
  · have hup : uniquePath existing filename = filename := by
      unfold uniquePath
      rw [if_neg hf]
    exact ⟨by rw [hup]; exact hf, fun _ => hup, fun hc => absurd hc hf, by decide⟩

/-- Witness for C8: in a directory already holding `Глава 1.docx`, the
next file of that name becomes `Глава 1 (2).docx`. -/
theorem unique_path_no_overwrite_witness :
    ("Глава 1.docx".data ∈ ["Глава 1.docx".data]) ∧
    (∃ n, 2 ≤ n ∧
      uniquePath ["Глава 1.docx".data] "Глава 1.docx".data =
        candName (splitExt "Глава 1.docx".data).1 (splitExt "Глава 1.docx".data).2 n ∧
      ∀ m, 2 ≤ m → m < n →
        candName (splitExt "Глава 1.docx".data).1 (splitExt "Глава 1.docx".data).2 m ∈
          ["Глава 1.docx".data]) :=
  ⟨by decide,
    (unique_path_no_overwrite ["Глава 1.docx".data] "Глава 1.docx".data).2.2.1 (by decide)⟩

/-! ### C4: decimal mode of the numbering audit -/

theorem insertSortedNat_ne_nil (x : Nat) (l : List Nat) : insertSortedNat x l ≠ [] := by
  cases l with
  | nil => simp [insertSortedNat]
  | cons y ys =>
    unfold insertSortedNat
    by_cases h1 : x < y
    · simp [h1]
    · by_cases h2 : x = y
      · simp [h1, h2]
      · simp [h1, h2]

theorem sortedDedup_ne_nil {l : List Nat} (h : l ≠ []) : sortedDedup l ≠ [] := by
  cases l with
  | nil => exact absurd rfl h
  | cons x xs => exact insertSortedNat_ne_nil x (sortedDedup xs)

theorem mem_insertSortedNat {y x : Nat} :
    ∀ {l : List Nat}, y ∈ insertSortedNat x l → y = x ∨ y ∈ l := by
  intro l
  induction l with
  | nil =>
    intro h
    simp [insertSortedNat] at h
    exact Or.inl h
  | cons z zs ih =>
    intro h
    unfold insertSortedNat at h
    by_cases h1 : x < z
    · rw [if_pos h1] at h
      rcases List.mem_cons.1 h with h' | h'
      · exact Or.inl h'
      · exact Or.inr h'
    · rw [if_neg h1] at h
      by_cases h2 : x = z
      · rw [if_pos h2] at h
        exact Or.inr h
      · rw [if_neg h2] at h
        rcases List.mem_cons.1 h with h' | h'
        · exact Or.inr (by simp [h'])
        · rcases ih h' with h'' | h''
          · exact Or.inl h''
          · exact Or.inr (by simp [h''])

theorem mem_sortedDedup {y : Nat} : ∀ {l : List Nat}, y ∈ sortedDedup l → y ∈ l := by
  intro l
  induction l with
  | nil =>
    intro h
    simp [sortedDedup] at h
  | cons x xs ih =>
    intro h
    have h' : y ∈ insertSortedNat x (sortedDedup xs) := h
    rcases mem_insertSortedNat h' with h1 | h1
    · simp [h1]
    · simp [ih h1]

theorem addChapterPair_good (mj mi : Nat) (hmi : 1 ≤ mi) :
    ∀ acc : List (Nat × List Nat),
      (∀ g ∈ acc, g.2 ≠ [] ∧ ∀ m ∈ g.2, 1 ≤ m) →
      ∀ g ∈ addChapterPair acc mj mi, g.2 ≠ [] ∧ ∀ m ∈ g.2, 1 ≤ m := by
  intro acc
  induction acc with
  | nil =>
    intro _ g hg
    simp only [addChapterPair, List.mem_singleton] at hg
    subst hg
    exact ⟨by simp, by intro m hm; simp at hm; omega⟩
  | cons a rest ih =>
    intro hacc g hg
    unfold addChapterPair at hg
    by_cases h : a.1 = mj
    · rw [if_pos h] at hg
      rcases List.mem_cons.1 hg with h' | h'
      · subst h'
        refine ⟨by simp, ?_⟩
        intro m hm
        rcases List.mem_append.1 hm with hm' | hm'
        · exact (hacc a (by simp)).2 m hm'
        · simp at hm'
          omega
      · exact hacc g (by simp [h'])
    · rw [if_neg h] at hg
      rcases List.mem_cons.1 hg with h' | h'
      · exact hacc g (by simp [h'])
      · exact ih (fun q hq => hacc q (by simp [hq])) g h'

theorem foldl_addChapterPair_good :
    ∀ (ps : List (Nat × Nat)) (acc : List (Nat × List Nat)),
      (∀ p ∈ ps, 1 ≤ p.2) → (∀ g ∈ acc, g.2 ≠ [] ∧ ∀ m ∈ g.2, 1 ≤ m) →
      ∀ g ∈ ps.foldl (fun acc p => addChapterPair acc p.1 p.2) acc,
        g.2 ≠ [] ∧ ∀ m ∈ g.2, 1 ≤ m := by
  intro ps
  induction ps with
  | nil =>
    intro acc _ hacc
    exact hacc
  | cons p rest ih =>
    intro acc hp hacc
    simp only [List.foldl_cons]
    exact ih (addChapterPair acc p.1 p.2) (fun q hq => hp q (by simp [hq]))
      (addChapterPair_good p.1 p.2 (hp p (by simp)) acc hacc)

theorem decLoop_eq_spec :
    ∀ gs : List (Nat × List Nat),
      (∀ g ∈ gs, g.2 ≠ [] ∧ ∀ m ∈ g.2, 1 ≤ m) →
      decLoop gs none none = specDecLoop gs none ∧
      ∀ pm px, 1 ≤ px → decLoop gs (some pm) (some px) = specDecLoop gs (some (pm, px)) := by
  intro gs
  induction gs with
  | nil =>
    intro _
    exact ⟨rfl, fun _ _ _ => rfl⟩
  | cons g rest ih =>
    intro hgood
    have hgood' : ∀ q ∈ rest, q.2 ≠ [] ∧ ∀ m ∈ q.2, 1 ≤ m :=
      fun q hq => hgood q (by simp [hq])
    have hg := hgood g (by simp)
    have hom_ne : sortedDedup g.2 ≠ [] := sortedDedup_ne_nil hg.1
    have hcur : 1 ≤ (sortedDedup g.2).getLast?.getD 0 := by
      rw [List.getLast?_eq_getLast _ hom_ne]
      exact hg.2 _ (mem_sortedDedup (List.getLast_mem hom_ne))
    obtain ⟨ihnone, ihsome⟩ := ih hgood'
    constructor
    · have e1 : decLoop (g :: rest) none none =
          (([] ++ minorWalk g.1 1 (sortedDedup g.2)) ++ []) ++
            decLoop rest (some g.1)
              (if (sortedDedup g.2).getLast?.getD 0 ≠ 0
               then some ((sortedDedup g.2).getLast?.getD 0) else some 1) := rfl
      have e2 : specDecLoop (g :: rest) none =
          (([] ++ minorWalk g.1 1 (sortedDedup g.2)) ++ []) ++
            specDecLoop rest (some (g.1, (sortedDedup g.2).getLast?.getD 0)) := rfl
      rw [e1, e2, if_pos (show (sortedDedup g.2).getLast?.getD 0 ≠ 0 by omega),
        ihsome g.1 _ hcur]
    · intro pm px hpx
      have e1 : decLoop (g :: rest) (some pm) (some px) =
          (((if pm + 1 < g.1 then
               ((List.range' (pm + 1) (g.1 - pm - 1)).map
                 (fun gm => (List.range' 1 (max px 1)).map
                   (fun mi => formatChapterNumber (gm, some mi)))).flatten
             else []) ++ minorWalk g.1 1 (sortedDedup g.2)) ++
            (if (sortedDedup g.2).getLast?.getD 0 < px then
               (List.range' ((sortedDedup g.2).getLast?.getD 0 + 1)
                   (px - (sortedDedup g.2).getLast?.getD 0)).map
                 (fun v => formatChapterNumber (g.1, some v))
             else [])) ++
            decLoop rest (some g.1)
              (if (sortedDedup g.2).getLast?.getD 0 ≠ 0
               then some ((sortedDedup g.2).getLast?.getD 0) else some px) := rfl
      have e2 : specDecLoop (g :: rest) (some (pm, px)) =
          (((if pm + 1 < g.1 then
               ((List.range' (pm + 1) (g.1 - pm - 1)).map
                 (fun gm => (List.range' 1 (max px 1)).map
                   (fun mi => formatChapterNumber (gm, some mi)))).flatten
             else []) ++ minorWalk g.1 1 (sortedDedup g.2)) ++
            (if (sortedDedup g.2).getLast?.getD 0 < px then
               (List.range' ((sortedDedup g.2).getLast?.getD 0 + 1)
                   (px - (sortedDedup g.2).getLast?.getD 0)).map
                 (fun v => formatChapterNumber (g.1, some v))
             else [])) ++
            specDecLoop rest (some (g.1, (sortedDedup g.2).getLast?.getD 0)) := rfl
      rw [e1, e2, if_pos (show (sortedDedup g.2).getLast?.getD 0 ≠ 0 by omega),
        ihsome g.1 _ hcur]

/-- C4: when at least one extracted label carries a minor part (all
minors being at least 1, as the data model guarantees), the audit drops
the labels without a minor, groups the rest by major in first-seen
order, walks each major's deduplicated ascending minors from
`expected_minor = 1` recording the gaps as missing, synthesizes skipped
majors, and — when a major's maximum minor is below the previous
major's maximum — fills `(current_max+1 .. prev_max)` under the current
major. -/
theorem find_missing_decimal_mode (paras : List String)
    (h1 : ¬ (∀ r ∈ extractNums paras, r.2 = none))
    (h2 : ∀ r ∈ extractNums paras, ∀ m, r.2 = some m → 1 ≤ ofDec m) :
    findMissingChapters paras = specDecimalMissing (decimalPairsOf (extractNums paras)) := by
  obtain ⟨r0, hr0mem, hr0⟩ : ∃ r ∈ extractNums paras, r.2 ≠ none := by
    by_contra hc
    push_neg at hc
    exact h1 hc
  obtain ⟨m0, hm0⟩ : ∃ m, r0.2 = some m := by
    cases hv : r0.2 with
    | none => exact absurd hv hr0
    | some m => exact ⟨m, rfl⟩
  have hraw : extractNums paras ≠ [] := by
    rintro h
    rw [h] at hr0mem
    simp at hr0mem
  have hall : ¬ ((extractNums paras).all (fun r => r.2 = none) = true) := by
    rw [List.all_eq_true]
    intro hv
    have := hv r0 hr0mem
    simp [hm0] at this
  have hpairs : decimalPairsOf (extractNums paras) ≠ [] := by
    have hmem : (ofDec r0.1, ofDec m0) ∈ decimalPairsOf (extractNums paras) := by
      unfold decimalPairsOf
      rw [List.mem_filterMap]
      exact ⟨r0, hr0mem, by rw [hm0]⟩
    rintro hnil
    rw [hnil] at hmem
    simp at hmem
  have hps : ∀ p ∈ decimalPairsOf (extractNums paras), 1 ≤ p.2 := by
    intro p hp
    unfold decimalPairsOf at hp
    rw [List.mem_filterMap] at hp
    obtain ⟨r, hrm, hrp⟩ := hp
    cases hv : r.2 with
    | none =>
      rw [hv] at hrp
      simp at hrp
    | some m =>
      rw [hv] at hrp
      simp only [Option.some.injEq] at hrp
      have := h2 r hrm m hv
      rw [← hrp]
      exact this
  unfold findMissingChapters specDecimalMissing
  rw [if_neg hraw, if_neg hall, if_neg hpairs]
  exact (decLoop_eq_spec (groupByMajor (decimalPairsOf (extractNums paras)))
    (foldl_addChapterPair_good _ [] hps (by simp))).1

/-- Witness for C4, on the spec's documented example: labels 1.1, 1.2,
2.1, 3.1 produce missing = ["Глава 2.2"]. -/
theorem find_missing_decimal_mode_witness :
    (¬ (∀ r ∈ extractNums ["Глава 1.1", "Глава 1.2", "Глава 2.1", "Глава 3.1"], r.2 = none)) ∧
    findMissingChapters ["Глава 1.1", "Глава 1.2", "Глава 2.1", "Глава 3.1"] = ["Глава 2.2"] := by
  refine ⟨by decide, ?_⟩
  rw [find_missing_decimal_mode _ (by decide) (by decide)]
  decide

end Cod
